import Mathlib

/-!
Verification of the spin-wheel engine of `script.js` (price_wheel_site).

The repository source holds two successive variants of the same script; the
geometry functions and the spin routine differ between them only in the sign
convention of the offset.  Both are embedded here (suffix `V1` for the first
variant, lines 432-539 of the concatenated source, and `V2` for the second,
lines 1419-1527).  JavaScript numbers are modelled by exact rationals `ℚ`
(exact arithmetic), `Math.floor` by `Int.floor`, the JavaScript `%` operator
(a truncated remainder whose sign follows the dividend) by `jsRem`, and the
`%` applied to the integer index values by `Int.tmod`.
-/

/-- Truncation toward zero, the rounding used by the JavaScript `%` operator:
`jsTrunc q = ⌊q⌋` for non-negative `q` and `-⌊-q⌋` (the ceiling) otherwise. -/
def jsTrunc (q : ℚ) : ℤ := if 0 ≤ q then ⌊q⌋ else -⌊-q⌋

/-- The JavaScript remainder `a % m`: truncated remainder, sign of the
dividend. -/
def jsRem (a m : ℚ) : ℚ := a - m * jsTrunc (a / m)

/-- Mathematical (floor) modulus, always in `[0, m)` for `m > 0`.  This is the
value computed by the source idiom `((v % m) + m) % m`. -/
def wrapMod (a m : ℚ) : ℚ := a - m * ⌊a / m⌋

/-- `const wheelHeight = ch * 0.8;` (source lines 435, 465, 1422, 1460). -/
def wheelHeight (ch : ℚ) : ℚ := ch * (4/5)

/-- `const segHeight = wheelHeight / items.length;` (source lines 436, 466,
1423, 1461). -/
def segHeight (ch : ℚ) (n : ℕ) : ℚ := wheelHeight ch / n

/-- `const y = (ch - wheelHeight) / 2;` (source lines 437, 467, 1424, 1462). -/
def yTop (ch : ℚ) : ℚ := (ch - wheelHeight ch) / 2

/-- `const centerY = ch / 2;` (source lines 438, 468, 1425, 1463). -/
def centerY (ch : ℚ) : ℚ := ch / 2

/-- First variant of `getIndexAtCentre` (source lines 432-442):
`posInWheel = centerY - y + offset; index = floor((posInWheel % wheelHeight)
/ segHeight); return (index + items.length) % items.length;`.
`items.length = 0` is undefined behaviour per the spec (the geometry model is
never invoked with an empty item list); the total model returns a junk value
there. -/
def getIndexAtCentre (ch : ℚ) (n : ℕ) (offset : ℚ) : ℤ :=
  Int.tmod (⌊jsRem (centerY ch - yTop ch + offset) (wheelHeight ch) / segHeight ch n⌋ + n) n

/-- Second variant of `getIndexAtCentre` (source lines 1419-1434):
`relativePos = centerY - y - offset; normalizedPos = ((relativePos %
wheelHeight) + wheelHeight) % wheelHeight; index = floor(normalizedPos /
segHeight); return index % items.length;`. -/
def getIndexAtCentreV2 (ch : ℚ) (n : ℕ) (offset : ℚ) : ℤ :=
  Int.tmod
    ⌊jsRem (jsRem (centerY ch - yTop ch - offset) (wheelHeight ch) + wheelHeight ch)
        (wheelHeight ch) / segHeight ch n⌋ n

/-- Planned settle offset of the first `spinWheel` variant (source line 470):
`finalOffset = selectedIndex * segHeight + segHeight / 2 + y - centerY;`. -/
def finalOffsetV1 (ch : ℚ) (n k : ℕ) : ℚ :=
  k * segHeight ch n + segHeight ch n / 2 + yTop ch - centerY ch

/-- Planned settle offset of the second `spinWheel` variant (source line 1467):
`finalOffset = centerY - y - selectedIndex * segHeight - segHeight / 2;`. -/
def finalOffsetV2 (ch : ℚ) (n k : ℕ) : ℚ :=
  centerY ch - yTop ch - k * segHeight ch n - segHeight ch n / 2

/-- End-of-spin normalization (source lines 498 and 1494):
`currentOffset = ((finalOffset % wheelHeight) + wheelHeight) % wheelHeight;`. -/
def normalizeOffset (ch : ℚ) (fo : ℚ) : ℚ :=
  jsRem (jsRem fo (wheelHeight ch) + wheelHeight ch) (wheelHeight ch)

/-! ### Arithmetic facts about `wrapMod` and `jsRem` -/

theorem wrapMod_eq_fract (a m : ℚ) (hm : m ≠ 0) :
    wrapMod a m = m * Int.fract (a / m) := by
  unfold wrapMod Int.fract
  field_simp

theorem wrapMod_nonneg (a m : ℚ) (hm : 0 < m) : 0 ≤ wrapMod a m := by
  rw [wrapMod_eq_fract a m hm.ne']
  exact mul_nonneg hm.le (Int.fract_nonneg _)

theorem wrapMod_lt (a m : ℚ) (hm : 0 < m) : wrapMod a m < m := by
  rw [wrapMod_eq_fract a m hm.ne']
  calc m * Int.fract (a / m) < m * 1 :=
        (mul_lt_mul_left hm).mpr (Int.fract_lt_one _)
    _ = m := mul_one m

theorem wrapMod_add_int_mul (a m : ℚ) (k : ℤ) (hm : m ≠ 0) :
    wrapMod (a + k * m) m = wrapMod a m := by
  rw [wrapMod_eq_fract _ m hm, wrapMod_eq_fract a m hm]
  have h : (a + k * m) / m = a / m + k := by field_simp
  rw [h, Int.fract_add_int]

theorem wrapMod_eq_self (a m : ℚ) (h0 : 0 ≤ a) (hlt : a < m) : wrapMod a m = a := by
  have hm : 0 < m := lt_of_le_of_lt h0 hlt
  have hfloor : ⌊a / m⌋ = 0 := by
    rw [Int.floor_eq_zero_iff]
    constructor
    · exact div_nonneg h0 hm.le
    · rw [div_lt_one hm]; exact hlt
  unfold wrapMod
  rw [hfloor]
  push_cast
  ring

theorem jsRem_of_nonneg (a m : ℚ) (hm : 0 < m) (ha : 0 ≤ a) :
    jsRem a m = wrapMod a m := by
  unfold jsRem wrapMod jsTrunc
  rw [if_pos (div_nonneg ha hm.le)]

theorem jsTrunc_of_neg (q : ℚ) (hq : q < 0) : jsTrunc q = ⌈q⌉ := by
  unfold jsTrunc
  rw [if_neg (not_le.mpr hq), Int.floor_neg, neg_neg]

theorem ceil_eq_floor_add_one_of_fract_ne (x : ℚ) (h : Int.fract x ≠ 0) :
    ⌈x⌉ = ⌊x⌋ + 1 := by
  have hne : (⌊x⌋ : ℚ) ≠ x := by
    intro he
    apply h
    unfold Int.fract
    rw [← he, Int.floor_intCast]
    ring
  have hlt : (⌊x⌋ : ℚ) < x := lt_of_le_of_ne (Int.floor_le x) hne
  have h1 : ⌈x⌉ ≤ ⌊x⌋ + 1 := by
    rw [Int.ceil_le]
    push_cast
    exact (Int.lt_floor_add_one x).le
  have h2 : ⌊x⌋ + 1 ≤ ⌈x⌉ := by
    have : (⌊x⌋ : ℚ) < (⌈x⌉ : ℚ) := lt_of_lt_of_le hlt (Int.le_ceil x)
    exact_mod_cast Int.add_one_le_iff.mpr (by exact_mod_cast this)
  exact le_antisymm h1 h2

theorem ceil_eq_floor_of_fract_eq (x : ℚ) (h : Int.fract x = 0) : ⌈x⌉ = ⌊x⌋ := by
  have hx : x = (⌊x⌋ : ℚ) := by
    have := Int.fract_add_floor x
    rw [h] at this
    simpa using this.symm
  rw [hx, Int.ceil_intCast, Int.floor_intCast]

/-- The JavaScript remainder agrees with the floor modulus up to one subtracted
period, and the subtracted period occurs only at nonzero residues. -/
theorem jsRem_eq_or (a m : ℚ) (hm : 0 < m) :
    jsRem a m = wrapMod a m ∨ (jsRem a m = wrapMod a m - m ∧ wrapMod a m ≠ 0) := by
  rcases le_or_lt 0 a with ha | ha
  · exact Or.inl (jsRem_of_nonneg a m hm ha)
  · have hq : a / m < 0 := div_neg_of_neg_of_pos ha hm
    unfold jsRem
    rw [jsTrunc_of_neg _ hq]
    rcases eq_or_ne (Int.fract (a / m)) 0 with hf | hf
    · rw [ceil_eq_floor_of_fract_eq _ hf]
      exact Or.inl rfl
    · rw [ceil_eq_floor_add_one_of_fract_ne _ hf]
      right
      constructor
      · unfold wrapMod
        push_cast
        ring
      · rw [wrapMod_eq_fract a m hm.ne']
        exact mul_ne_zero hm.ne' hf

theorem jsRem_lower (a m : ℚ) (hm : 0 < m) : -m < jsRem a m := by
  rcases jsRem_eq_or a m hm with h | ⟨h, hne⟩
  · rw [h]
    calc (-m : ℚ) < 0 := neg_neg_iff_pos.mpr hm
      _ ≤ wrapMod a m := wrapMod_nonneg a m hm
  · rw [h]
    have h0 := wrapMod_nonneg a m hm
    have : 0 < wrapMod a m := lt_of_le_of_ne h0 (Ne.symm hne)
    linarith

theorem jsRem_upper (a m : ℚ) (hm : 0 < m) : jsRem a m < m := by
  rcases jsRem_eq_or a m hm with h | ⟨h, _⟩
  · rw [h]; exact wrapMod_lt a m hm
  · rw [h]
    have := wrapMod_lt a m hm
    linarith

/-- Congruence of `wrapMod` under replacing an argument by its residue,
additive form. -/
theorem wrapMod_add_wrapMod (a m c : ℚ) (hm : 0 < m) :
    wrapMod (c + wrapMod a m) m = wrapMod (c + a) m := by
  rw [show c + wrapMod a m = (c + a) + (-⌊a / m⌋ : ℤ) * m by
    unfold wrapMod; push_cast; ring]
  exact wrapMod_add_int_mul (c + a) m (-⌊a / m⌋) hm.ne'

/-- Congruence of `wrapMod` under replacing an argument by its residue,
subtractive form. -/
theorem wrapMod_sub_wrapMod (a m c : ℚ) (hm : 0 < m) :
    wrapMod (c - wrapMod a m) m = wrapMod (c - a) m := by
  rw [show c - wrapMod a m = (c - a) + (⌊a / m⌋ : ℤ) * m by
    unfold wrapMod; ring]
  exact wrapMod_add_int_mul (c - a) m (⌊a / m⌋) hm.ne'

/-- `jsRem a m` is congruent to `a` modulo `m`. -/
theorem wrapMod_jsRem_add (a m c : ℚ) (hm : 0 < m) :
    wrapMod (c + jsRem a m) m = wrapMod (c + a) m := by
  rcases jsRem_eq_or a m hm with h | ⟨h, _⟩
  · rw [h]
    exact wrapMod_add_wrapMod a m c hm
  · rw [h]
    rw [show c + (wrapMod a m - m) = c + wrapMod a m + (-1 : ℤ) * m by push_cast; ring]
    rw [wrapMod_add_int_mul (c + wrapMod a m) m (-1) hm.ne']
    exact wrapMod_add_wrapMod a m c hm

/-- The double-remainder idiom `((a % m) + m) % m` of the source computes the
floor modulus. -/
theorem jsRem_jsRem_add (a m : ℚ) (hm : 0 < m) :
    jsRem (jsRem a m + m) m = wrapMod a m := by
  have hpos : 0 ≤ jsRem a m + m := by
    have := jsRem_lower a m hm
    linarith
  rw [jsRem_of_nonneg _ m hm hpos]
  rw [show jsRem a m + m = 0 + jsRem a m + (1 : ℤ) * m by push_cast; ring]
  rw [wrapMod_add_int_mul (0 + jsRem a m) m 1 hm.ne']
  have h2 := wrapMod_jsRem_add a m 0 hm
  rw [zero_add] at h2
  rw [zero_add]
  rw [h2, zero_add]

/-! ### Canonical form of the two centreline-index functions -/

theorem wheelHeight_pos (ch : ℚ) (hch : 0 < ch) : 0 < wheelHeight ch := by
  unfold wheelHeight
  positivity

theorem segHeight_pos (ch : ℚ) (n : ℕ) (hch : 0 < ch) (hn : 0 < n) :
    0 < segHeight ch n := by
  unfold segHeight
  exact div_pos (wheelHeight_pos ch hch) (by exact_mod_cast hn)

theorem n_mul_segHeight (ch : ℚ) (n : ℕ) (hn : 0 < n) :
    (n : ℚ) * segHeight ch n = wheelHeight ch := by
  unfold segHeight
  rw [mul_div_cancel₀]
  exact_mod_cast hn.ne'

theorem centerY_sub_yTop (ch : ℚ) : centerY ch - yTop ch = wheelHeight ch / 2 := by
  unfold centerY yTop
  ring

/-- Range of the canonical index `⌊W / segHeight⌋` for `W ∈ [0, wheelHeight)`. -/
theorem floor_div_seg_range (ch : ℚ) (n : ℕ) (W : ℚ) (hch : 0 < ch) (hn : 0 < n)
    (h0 : 0 ≤ W) (hW : W < wheelHeight ch) :
    0 ≤ ⌊W / segHeight ch n⌋ ∧ ⌊W / segHeight ch n⌋ < n := by
  have hsh := segHeight_pos ch n hch hn
  constructor
  · exact Int.floor_nonneg.mpr (div_nonneg h0 hsh.le)
  · rw [Int.floor_lt]
    have hWn : W < (n : ℚ) * segHeight ch n := by
      rw [n_mul_segHeight ch n hn]; exact hW
    have h2 : W / segHeight ch n < (n : ℚ) := (div_lt_iff₀ hsh).mpr hWn
    exact_mod_cast h2

theorem tmod_add_self_eq (J : ℤ) (n : ℕ) (h0 : 0 ≤ J) (hJ : J < n) :
    Int.tmod (J + n) n = J := by
  have h1 : 0 ≤ J + (n : ℤ) := by positivity
  have h2 : (0 : ℤ) ≤ n := Int.ofNat_nonneg n
  rw [Int.tmod_eq_emod h1 h2]
  rw [show J + (n : ℤ) = J + (n : ℤ) * 1 by ring, Int.add_mul_emod_self_left]
  exact Int.emod_eq_of_lt h0 hJ

theorem tmod_self_eq (J : ℤ) (n : ℕ) (h0 : 0 ≤ J) (hJ : J < n) :
    Int.tmod J n = J := by
  rw [Int.tmod_eq_emod h0 (Int.ofNat_nonneg n)]
  exact Int.emod_eq_of_lt h0 hJ

/-- First-variant index function in canonical form: the floor modulus of the
centreline position, divided by the segment height. -/
theorem getIndexAtCentre_eq (ch : ℚ) (n : ℕ) (offset : ℚ) (hch : 0 < ch) (hn : 0 < n) :
    getIndexAtCentre ch n offset =
      ⌊wrapMod (wheelHeight ch / 2 + offset) (wheelHeight ch) / segHeight ch n⌋ := by
  have hwh := wheelHeight_pos ch hch
  have hsh := segHeight_pos ch n hch hn
  unfold getIndexAtCentre
  rw [centerY_sub_yTop ch]
  have hJ := floor_div_seg_range ch n (wrapMod (wheelHeight ch / 2 + offset) (wheelHeight ch))
    hch hn (wrapMod_nonneg _ _ hwh) (wrapMod_lt _ _ hwh)
  rcases jsRem_eq_or (wheelHeight ch / 2 + offset) (wheelHeight ch) hwh with h | ⟨h, _⟩
  · rw [h]
    exact tmod_add_self_eq _ n hJ.1 hJ.2
  · rw [h]
    have hdiv : (wrapMod (wheelHeight ch / 2 + offset) (wheelHeight ch) - wheelHeight ch) /
        segHeight ch n =
        wrapMod (wheelHeight ch / 2 + offset) (wheelHeight ch) / segHeight ch n - (n : ℚ) := by
      rw [sub_div]
      congr 1
      rw [← n_mul_segHeight ch n hn, mul_div_assoc, div_self hsh.ne', mul_one]
    rw [hdiv]
    rw [show (n : ℚ) = ((n : ℤ) : ℚ) by push_cast; ring]
    rw [Int.floor_sub_int]
    rw [show ⌊wrapMod (wheelHeight ch / 2 + offset) (wheelHeight ch) / segHeight ch n⌋ -
        (n : ℤ) + (n : ℤ) =
        ⌊wrapMod (wheelHeight ch / 2 + offset) (wheelHeight ch) / segHeight ch n⌋ by ring]
    exact tmod_self_eq _ n hJ.1 hJ.2

/-- Second-variant index function in canonical form. -/
theorem getIndexAtCentreV2_eq (ch : ℚ) (n : ℕ) (offset : ℚ) (hch : 0 < ch) (hn : 0 < n) :
    getIndexAtCentreV2 ch n offset =
      ⌊wrapMod (wheelHeight ch / 2 - offset) (wheelHeight ch) / segHeight ch n⌋ := by
  have hwh := wheelHeight_pos ch hch
  unfold getIndexAtCentreV2
  rw [show centerY ch - yTop ch - offset = wheelHeight ch / 2 - offset from by
    rw [centerY_sub_yTop ch]]
  rw [jsRem_jsRem_add _ _ hwh]
  have hJ := floor_div_seg_range ch n (wrapMod (wheelHeight ch / 2 - offset) (wheelHeight ch))
    hch hn (wrapMod_nonneg _ _ hwh) (wrapMod_lt _ _ hwh)
  exact tmod_self_eq _ n hJ.1 hJ.2

/-- The offset that puts the centre of segment `k` on the centreline resolves
to index `k`. -/
theorem settle_index_eq (ch : ℚ) (n k : ℕ) (hch : 0 < ch) (hn : 0 < n) (hk : k < n) :
    ⌊wrapMod ((k : ℚ) * segHeight ch n + segHeight ch n / 2) (wheelHeight ch) /
      segHeight ch n⌋ = k := by
  have hsh := segHeight_pos ch n hch hn
  have harg0 : 0 ≤ (k : ℚ) * segHeight ch n + segHeight ch n / 2 := by positivity
  have hargl : (k : ℚ) * segHeight ch n + segHeight ch n / 2 < wheelHeight ch := by
    rw [← n_mul_segHeight ch n hn]
    have hkn : (k : ℚ) + 1 ≤ (n : ℚ) := by exact_mod_cast hk
    nlinarith
  rw [wrapMod_eq_self _ _ harg0 hargl]
  have hdiv : ((k : ℚ) * segHeight ch n + segHeight ch n / 2) / segHeight ch n
      = (k : ℚ) + 1/2 := by
    field_simp
    ring
  rw [hdiv]
  rw [show (k : ℚ) + 1/2 = ((k : ℤ) : ℚ) + 1/2 by push_cast; ring]
  rw [Int.floor_int_add]
  norm_num

/-! ### Claims C1, C2, C3, C10 -/

theorem finalOffsetV1_shift (ch : ℚ) (n k : ℕ) :
    wheelHeight ch / 2 + finalOffsetV1 ch n k
      = (k : ℚ) * segHeight ch n + segHeight ch n / 2 := by
  unfold finalOffsetV1 centerY yTop wheelHeight segHeight
  ring

theorem finalOffsetV2_shift (ch : ℚ) (n k : ℕ) :
    wheelHeight ch / 2 - finalOffsetV2 ch n k
      = (k : ℚ) * segHeight ch n + segHeight ch n / 2 := by
  unfold finalOffsetV2 centerY yTop wheelHeight segHeight
  ring

/-- C1.  Determinism of settle: for every `itemCount > 0` and every
`winningIndex ∈ [0, itemCount)`, evaluating the centreline-index function at
the planned final offset of `spinWheel` returns that `winningIndex`, in both
sign variants of the source. -/
theorem c1_settle_determinism (ch : ℚ) (n k : ℕ) (hch : 0 < ch) (hn : 0 < n)
    (hk : k < n) :
    getIndexAtCentre ch n (finalOffsetV1 ch n k) = k ∧
    getIndexAtCentreV2 ch n (finalOffsetV2 ch n k) = k := by
  constructor
  · rw [getIndexAtCentre_eq ch n _ hch hn, finalOffsetV1_shift ch n k]
    exact settle_index_eq ch n k hch hn hk
  · rw [getIndexAtCentreV2_eq ch n _ hch hn, finalOffsetV2_shift ch n k]
    exact settle_index_eq ch n k hch hn hk

/-- Witness for C1 at `ch = 10`, `n = 4`, `k = 2`. -/
theorem c1_settle_determinism_witness :
    getIndexAtCentre 10 4 (finalOffsetV1 10 4 2) = 2 ∧
    getIndexAtCentreV2 10 4 (finalOffsetV2 10 4 2) = 2 :=
  c1_settle_determinism 10 4 2 (by norm_num) (by norm_num) (by norm_num)

/-- C2.  Wrap correctness: for every non-empty items list and every rational
offset (negative and multi-rotation offsets included), both variants of
`getIndexAtCentre` return an integer in `[0, items.length)`. -/
theorem c2_wrap_correctness (ch : ℚ) (n : ℕ) (offset : ℚ) (hch : 0 < ch)
    (hn : 0 < n) :
    (0 ≤ getIndexAtCentre ch n offset ∧ getIndexAtCentre ch n offset < n) ∧
    (0 ≤ getIndexAtCentreV2 ch n offset ∧ getIndexAtCentreV2 ch n offset < n) := by
  have hwh := wheelHeight_pos ch hch
  constructor
  · rw [getIndexAtCentre_eq ch n offset hch hn]
    exact floor_div_seg_range ch n _ hch hn (wrapMod_nonneg _ _ hwh) (wrapMod_lt _ _ hwh)
  · rw [getIndexAtCentreV2_eq ch n offset hch hn]
    exact floor_div_seg_range ch n _ hch hn (wrapMod_nonneg _ _ hwh) (wrapMod_lt _ _ hwh)

/-- Witness for C2 at `ch = 10`, `n = 3`, `offset = -77/3` (negative, more
than three full wheel heights). -/
theorem c2_wrap_correctness_witness :
    (0 ≤ getIndexAtCentre 10 3 (-77/3) ∧ getIndexAtCentre 10 3 (-77/3) < 3) ∧
    (0 ≤ getIndexAtCentreV2 10 3 (-77/3) ∧ getIndexAtCentreV2 10 3 (-77/3) < 3) :=
  c2_wrap_correctness 10 3 (-77/3) (by norm_num) (by norm_num)

/-- C3.  Post-settle consistency: the final-frame normalization
`((finalOffset % wheelHeight) + wheelHeight) % wheelHeight` lands in
`[0, wheelHeight)`, and the selected index recomputed by `getIndexAtCentre`
at the normalized offset equals the originally chosen winning index, in both
variants. -/
theorem c3_post_settle_consistency (ch : ℚ) (n k : ℕ) (hch : 0 < ch) (hn : 0 < n)
    (hk : k < n) :
    (0 ≤ normalizeOffset ch (finalOffsetV1 ch n k) ∧
      normalizeOffset ch (finalOffsetV1 ch n k) < wheelHeight ch ∧
      getIndexAtCentre ch n (normalizeOffset ch (finalOffsetV1 ch n k)) = k) ∧
    (0 ≤ normalizeOffset ch (finalOffsetV2 ch n k) ∧
      normalizeOffset ch (finalOffsetV2 ch n k) < wheelHeight ch ∧
      getIndexAtCentreV2 ch n (normalizeOffset ch (finalOffsetV2 ch n k)) = k) := by
  have hwh := wheelHeight_pos ch hch
  have hnorm1 : normalizeOffset ch (finalOffsetV1 ch n k)
      = wrapMod (finalOffsetV1 ch n k) (wheelHeight ch) := jsRem_jsRem_add _ _ hwh
  have hnorm2 : normalizeOffset ch (finalOffsetV2 ch n k)
      = wrapMod (finalOffsetV2 ch n k) (wheelHeight ch) := jsRem_jsRem_add _ _ hwh
  refine ⟨⟨?_, ?_, ?_⟩, ⟨?_, ?_, ?_⟩⟩
  · rw [hnorm1]; exact wrapMod_nonneg _ _ hwh
  · rw [hnorm1]; exact wrapMod_lt _ _ hwh
  · rw [hnorm1, getIndexAtCentre_eq ch n _ hch hn,
      wrapMod_add_wrapMod (finalOffsetV1 ch n k) (wheelHeight ch) _ hwh,
      finalOffsetV1_shift ch n k]
    exact settle_index_eq ch n k hch hn hk
  · rw [hnorm2]; exact wrapMod_nonneg _ _ hwh
  · rw [hnorm2]; exact wrapMod_lt _ _ hwh
  · rw [hnorm2, getIndexAtCentreV2_eq ch n _ hch hn,
      wrapMod_sub_wrapMod (finalOffsetV2 ch n k) (wheelHeight ch) _ hwh,
      finalOffsetV2_shift ch n k]
    exact settle_index_eq ch n k hch hn hk

/-- Witness for C3 at `ch = 10`, `n = 5`, `k = 4`. -/
theorem c3_post_settle_consistency_witness :
    (0 ≤ normalizeOffset 10 (finalOffsetV1 10 5 4) ∧
      normalizeOffset 10 (finalOffsetV1 10 5 4) < wheelHeight 10 ∧
      getIndexAtCentre 10 5 (normalizeOffset 10 (finalOffsetV1 10 5 4)) = 4) ∧
    (0 ≤ normalizeOffset 10 (finalOffsetV2 10 5 4) ∧
      normalizeOffset 10 (finalOffsetV2 10 5 4) < wheelHeight 10 ∧
      getIndexAtCentreV2 10 5 (normalizeOffset 10 (finalOffsetV2 10 5 4)) = 4) :=
  c3_post_settle_consistency 10 5 4 (by norm_num) (by norm_num) (by norm_num)

/-- C10.  Periodicity of the geometry model: shifting the offset by any whole
number of wheel heights leaves the centreline index of either variant
unchanged (exact arithmetic). -/
theorem c10_periodicity (ch : ℚ) (n : ℕ) (offset : ℚ) (k : ℤ) (hch : 0 < ch)
    (hn : 0 < n) :
    getIndexAtCentre ch n (offset + k * wheelHeight ch) = getIndexAtCentre ch n offset ∧
    getIndexAtCentreV2 ch n (offset + k * wheelHeight ch) = getIndexAtCentreV2 ch n offset := by
  have hwh := wheelHeight_pos ch hch
  constructor
  · rw [getIndexAtCentre_eq ch n _ hch hn, getIndexAtCentre_eq ch n offset hch hn]
    rw [show wheelHeight ch / 2 + (offset + (k : ℚ) * wheelHeight ch)
        = (wheelHeight ch / 2 + offset) + (k : ℚ) * wheelHeight ch by ring]
    rw [wrapMod_add_int_mul _ _ k hwh.ne']
  · rw [getIndexAtCentreV2_eq ch n _ hch hn, getIndexAtCentreV2_eq ch n offset hch hn]
    rw [show wheelHeight ch / 2 - (offset + (k : ℚ) * wheelHeight ch)
        = (wheelHeight ch / 2 - offset) + ((-k : ℤ) : ℚ) * wheelHeight ch by push_cast; ring]
    rw [wrapMod_add_int_mul _ _ (-k) hwh.ne']

/-- Witness for C10 at `ch = 10`, `n = 3`, `offset = 7/2`, `k = -5`. -/
theorem c10_periodicity_witness :
    getIndexAtCentre 10 3 (7/2 + (-5 : ℤ) * wheelHeight 10) = getIndexAtCentre 10 3 (7/2) ∧
    getIndexAtCentreV2 10 3 (7/2 + (-5 : ℤ) * wheelHeight 10) = getIndexAtCentreV2 10 3 (7/2) :=
  c10_periodicity 10 3 (7/2) (-5) (by norm_num) (by norm_num)

/-! ### Animation frames and tick detection (claim C4) -/

/-- `const easeOut = 1 - Math.pow(1 - progress, 3);` (source lines 483, 1479). -/
def easeOut (p : ℚ) : ℚ := 1 - (1 - p)^3

/-- `const progress = Math.min(elapsed / duration, 1);` with `duration = 4000`
(source lines 476, 482, 1473, 1478). -/
def progressAt (elapsed : ℚ) : ℚ := min (elapsed / 4000) 1

/-- `currentOffset = startOffset + distance * easeOut;` (source lines 484,
1480). -/
def frameOffset (startOffset distance elapsed : ℚ) : ℚ :=
  startOffset + distance * easeOut (progressAt elapsed)

/-- The offsets of one spin's animation frames sampled at the given elapsed
times, under the first-variant trajectory plan (source lines 470-475):
`targetOffset = finalOffset + 3 * wheelHeight`, `distance = targetOffset -
startOffset`. -/
def spinFrames (ch : ℚ) (n k : ℕ) (startOffset : ℚ) (times : List ℚ) : List ℚ :=
  times.map
    (frameOffset startOffset (finalOffsetV1 ch n k + 3 * wheelHeight ch - startOffset))

/-- Tick-firing discipline of `animate` (source lines 486-491): on each frame a
tick sound plays iff the centreline index differs from `lastTickIndex`, which
then records the new index.  `lastTickIndex` is `-1` when a spin starts
(source lines 27, 500, 559), and `isSpinning` stays `true` on every frame of
an undisturbed spin, so the `&& isSpinning` conjunct of the guard is `true`
throughout and is omitted here. -/
def ticksFired (ch : ℚ) (n : ℕ) : ℤ → List ℚ → ℕ
  | _, [] => 0
  | last, o :: rest =>
    if getIndexAtCentre ch n o ≠ last
    then 1 + ticksFired ch n (getIndexAtCentre ch n o) rest
    else ticksFired ch n last rest

/-- Count of entries differing from their predecessor, seeded with an explicit
previous value. -/
def changesFrom : ℤ → List ℤ → ℕ
  | _, [] => 0
  | prev, a :: rest => (if a ≠ prev then 1 else 0) + changesFrom a rest

/-- Number of consecutive-pair changes within a list of indices. -/
def changeCount : List ℤ → ℕ
  | [] => 0
  | a :: rest => changesFrom a rest

theorem ticksFired_eq_changesFrom (ch : ℚ) (n : ℕ) (os : List ℚ) :
    ∀ last, ticksFired ch n last os = changesFrom last (os.map (getIndexAtCentre ch n)) := by
  induction os with
  | nil => intro last; rfl
  | cons o rest ih =>
      intro last
      rw [List.map_cons]
      show (if getIndexAtCentre ch n o ≠ last
          then 1 + ticksFired ch n (getIndexAtCentre ch n o) rest
          else ticksFired ch n last rest) =
        (if getIndexAtCentre ch n o ≠ last then 1 else 0) +
          changesFrom (getIndexAtCentre ch n o) (rest.map (getIndexAtCentre ch n))
      by_cases h : getIndexAtCentre ch n o ≠ last
      · rw [if_pos h, if_pos h, ih]
      · rw [if_neg h, if_neg h, ih]
        push_neg at h
        simp [h]

/-- A one-item wheel always resolves to index `0`. -/
theorem getIndexAtCentre_ten_one (o : ℚ) : getIndexAtCentre 10 1 o = 0 := by
  have hwh : (0 : ℚ) < wheelHeight 10 := wheelHeight_pos 10 (by norm_num)
  have h1 := getIndexAtCentre_eq 10 1 o (by norm_num) (by norm_num)
  have h2 := floor_div_seg_range 10 1 (wrapMod (wheelHeight 10 / 2 + o) (wheelHeight 10))
    (by norm_num) (by norm_num) (wrapMod_nonneg _ _ hwh) (wrapMod_lt _ _ hwh)
  rw [h1]
  omega


/-- C4 (counterexample).  A two-frame discretization of a spin of a one-item
wheel: the centreline index never changes across consecutive frames, yet one
tick fires, because `lastTickIndex` starts at the sentinel `-1` and the first
frame's index always differs from it. -/
theorem c4_tick_count_counterexample :
    ticksFired 10 1 (-1) (spinFrames 10 1 0 0 [0, 4000]) ≠
      changeCount ((spinFrames 10 1 0 0 [0, 4000]).map (getIndexAtCentre 10 1)) := by
  simp [spinFrames, ticksFired, changeCount, changesFrom, getIndexAtCentre_ten_one]

/-- C4 (amended).  Over one spin's animation (any non-empty frame list), the
number of tick invocations equals the number of consecutive-frame index
changes PLUS ONE: the first frame always ticks, since `lastTickIndex` holds
the sentinel `-1` at spin start and every index is non-negative.  In
particular no tick fires on a later frame whose index is unchanged from the
previous frame. -/
theorem c4_tick_count_amended (ch : ℚ) (n : ℕ) (hch : 0 < ch) (hn : 0 < n)
    (o : ℚ) (os : List ℚ) :
    ticksFired ch n (-1) (o :: os) =
      changeCount ((o :: os).map (getIndexAtCentre ch n)) + 1 := by
  have hwh := wheelHeight_pos ch hch
  have hpos : 0 ≤ getIndexAtCentre ch n o := by
    rw [getIndexAtCentre_eq ch n o hch hn]
    exact (floor_div_seg_range ch n _ hch hn (wrapMod_nonneg _ _ hwh)
      (wrapMod_lt _ _ hwh)).1
  rw [ticksFired_eq_changesFrom ch n (o :: os) (-1)]
  rw [List.map_cons]
  show (if getIndexAtCentre ch n o ≠ -1 then 1 else 0) +
      changesFrom (getIndexAtCentre ch n o) (os.map (getIndexAtCentre ch n)) =
    changesFrom (getIndexAtCentre ch n o) (os.map (getIndexAtCentre ch n)) + 1
  rw [if_pos (by omega : getIndexAtCentre ch n o ≠ -1)]
  omega

/-- Witness for the amended C4 at `ch = 10`, `n = 2`, frames `[0, 4000]`. -/
theorem c4_tick_count_amended_witness :
    ticksFired 10 2 (-1) [0, 4000] =
      changeCount ([0, 4000].map (getIndexAtCentre 10 2)) + 1 :=
  c4_tick_count_amended 10 2 (by norm_num) (by norm_num) 0 [4000]

/-! ### The spin state machine (claims C5-C9)

The machine mirrors the module-level mutable state of the script (source
lines 22-30) together with the scheduler: each `requestAnimationFrame`
registration is a pending `Anim` record holding the values captured by the
`animate` closure.  The spin, reset and generate operations follow the
second (current) variant of the script, lines 1442-1575; the guard lines
450-453 of the first variant are textually identical to lines 1443-1445.
`shuffleArray` and `Math.random` are external inputs here: `generateStep`
receives the already-shuffled list, `spinStep` receives the chosen winning
index. -/

/-- Values captured by value in the `animate` closure (source lines
1470-1474): `startOffset`, `distance`, `finalOffset`.  (`startTime` is
subsumed by passing `elapsed` to each frame.) -/
structure Anim where
  startOffset : ℚ
  distance : ℚ
  finalOffset : ℚ
deriving DecidableEq

/-- The module-level mutable state (source lines 22-30), the scheduled
animation callbacks, and the log of settle notifications shown to the user
(the overlay/result writes of lines 1500-1509). -/
structure Sys where
  currentItems : List String
  currentOffset : ℚ
  isSpinning : Bool
  selectedIndex : Option ℤ
  originalItems : List String
  lastTickIndex : ℤ
  pending : List Anim
  settledLog : List String
deriving DecidableEq

/-- Page-load state (source lines 22-30): empty lists, offset `0`,
`isSpinning = false`, `selectedIndex = null`, `lastTickIndex = -1`. -/
def sysInit : Sys :=
  { currentItems := []
    currentOffset := 0
    isSpinning := false
    selectedIndex := none
    originalItems := []
    lastTickIndex := -1
    pending := []
    settledLog := [] }

/-- `spinWheel()` up to the `requestAnimationFrame(animate)` call (source
lines 1442-1475, guard 1443-1445): no-op while spinning or with no items;
otherwise records the winning index, computes the trajectory, sets
`isSpinning` and schedules one animation callback. -/
def spinStep (ch : ℚ) (k : ℕ) (s : Sys) : Sys :=
  if s.isSpinning = true ∨ s.currentItems = [] then s
  else
    { s with
      selectedIndex := some (k : ℤ)
      isSpinning := true
      pending := s.pending ++
        [{ startOffset := s.currentOffset
           distance := finalOffsetV2 ch s.currentItems.length k + 3 * wheelHeight ch
             - s.currentOffset
           finalOffset := finalOffsetV2 ch s.currentItems.length k }] }

/-- Index recomputed at settle time (source line 1498) from the captured
`finalOffset` and the CURRENT item list. -/
def settleIndex (ch : ℚ) (a : Anim) (s : Sys) : ℤ :=
  getIndexAtCentreV2 ch s.currentItems.length (normalizeOffset ch a.finalOffset)

/-- The `progress >= 1` branch of `animate` (source lines 1492-1523):
normalize the offset, clear `isSpinning` and `lastTickIndex`, recompute
`selectedIndex`, read the winning label BEFORE removal, notify, remove the
winner, reset the offset to `0`. -/
def completeAnim (ch : ℚ) (a : Anim) (s : Sys) : Sys :=
  { s with
    currentOffset := 0
    isSpinning := false
    lastTickIndex := -1
    selectedIndex := some (settleIndex ch a s)
    settledLog := s.settledLog ++ [s.currentItems.getD (settleIndex ch a s).toNat ""]
    currentItems := s.currentItems.eraseIdx (settleIndex ch a s).toNat }

/-- One invocation of the `animate` callback of the pending animation at
position `i`, at elapsed time `elapsed` (source lines 1476-1526): recompute
the offset from the eased progress, fire/record a tick when the index moved
and `isSpinning` holds, then either re-schedule (`progress < 1`) or complete. -/
def frameBody (ch : ℚ) (i : ℕ) (elapsed : ℚ) (a : Anim) (s : Sys) : Sys :=
  let p := progressAt elapsed
  let off := a.startOffset + a.distance * easeOut p
  let idx := getIndexAtCentreV2 ch s.currentItems.length off
  let s1 : Sys := { s with currentOffset := off }
  let s2 : Sys := if idx ≠ s1.lastTickIndex ∧ s1.isSpinning = true
    then { s1 with lastTickIndex := idx } else s1
  if p < 1 then s2
  else completeAnim ch a { s2 with pending := s2.pending.eraseIdx i }

def frameStep (ch : ℚ) (i : ℕ) (elapsed : ℚ) (s : Sys) : Sys :=
  match s.pending[i]? with
  | none => s
  | some a => frameBody ch i elapsed a s

/-- The reset-button handler (source lines 1558-1575): no-op with no retained
original list, else restore the items, zero the offset, clear the selection
and the spinning flag.  The pending animation chain is NOT cancelled. -/
def resetStep (s : Sys) : Sys :=
  if s.originalItems = [] then s
  else
    { s with
      currentItems := s.originalItems
      currentOffset := 0
      selectedIndex := none
      isSpinning := false }

/-- The generate-button handler (source lines 1530-1552), taking the
already-shuffled tag list: no-op (alert) on an empty list, else install the
list, retain a copy as the original, zero the offset, clear selection,
spinning flag and tick tracking.  The pending animation chain is NOT
cancelled. -/
def generateStep (items0 : List String) (s : Sys) : Sys :=
  if items0 = [] then s
  else
    { s with
      currentItems := items0
      originalItems := items0
      currentOffset := 0
      selectedIndex := none
      isSpinning := false
      lastTickIndex := -1 }

/-- One spin driven to completion in a single frame at `elapsed = 4000`. -/
def fullSpin (ch : ℚ) (k : ℕ) (s : Sys) : Sys :=
  frameStep ch 0 4000 (spinStep ch k s)

/-- A sequence of completed spins with the given winning indices. -/
def runSpins (ch : ℚ) : List ℕ → Sys → Sys
  | [], s => s
  | k :: ks, s => runSpins ch ks (fullSpin ch k s)

/-! ### Step characterizations -/

/-- Settle round trip in the second variant: normalizing the planned final
offset and re-reading the centreline index returns the planned winning
index. -/
theorem settle_roundtrip_v2 (ch : ℚ) (n k : ℕ) (hch : 0 < ch) (hn : 0 < n)
    (hk : k < n) :
    getIndexAtCentreV2 ch n (normalizeOffset ch (finalOffsetV2 ch n k)) = k := by
  have hwh := wheelHeight_pos ch hch
  have hnorm : normalizeOffset ch (finalOffsetV2 ch n k)
      = wrapMod (finalOffsetV2 ch n k) (wheelHeight ch) := jsRem_jsRem_add _ _ hwh
  rw [hnorm, getIndexAtCentreV2_eq ch n _ hch hn,
    wrapMod_sub_wrapMod (finalOffsetV2 ch n k) (wheelHeight ch) _ hwh,
    finalOffsetV2_shift ch n k]
  exact settle_index_eq ch n k hch hn hk

theorem spinStep_guarded (ch : ℚ) (k : ℕ) (s : Sys)
    (h : s.isSpinning = true ∨ s.currentItems = []) : spinStep ch k s = s := by
  unfold spinStep
  rw [if_pos h]

theorem spinStep_run (ch : ℚ) (k : ℕ) (s : Sys) (hs : s.isSpinning = false)
    (hne : s.currentItems ≠ []) :
    spinStep ch k s =
      { s with
        selectedIndex := some (k : ℤ)
        isSpinning := true
        pending := s.pending ++
          [{ startOffset := s.currentOffset
             distance := finalOffsetV2 ch s.currentItems.length k + 3 * wheelHeight ch
               - s.currentOffset
             finalOffset := finalOffsetV2 ch s.currentItems.length k }] } := by
  unfold spinStep
  rw [if_neg (by simp [hs, hne])]

theorem progressAt_of_ge (elapsed : ℚ) (he : 4000 ≤ elapsed) :
    progressAt elapsed = 1 := by
  unfold progressAt
  rw [min_eq_right]
  rw [le_div_iff₀ (by norm_num : (0:ℚ) < 4000)]
  linarith

theorem frameStep_none (ch : ℚ) (i : ℕ) (elapsed : ℚ) (s : Sys)
    (h : s.pending[i]? = none) : frameStep ch i elapsed s = s := by
  unfold frameStep
  rw [h]

theorem frameStep_some (ch : ℚ) (i : ℕ) (elapsed : ℚ) (a : Anim) (s : Sys)
    (h : s.pending[i]? = some a) :
    frameStep ch i elapsed s = frameBody ch i elapsed a s := by
  unfold frameStep
  rw [h]

/-- A frame at or past the full duration completes the animation. -/
theorem frameBody_complete (ch elapsed : ℚ) (i : ℕ) (a : Anim) (s : Sys)
    (he : 4000 ≤ elapsed) :
    frameBody ch i elapsed a s =
      { s with
        currentItems := s.currentItems.eraseIdx (settleIndex ch a s).toNat
        currentOffset := 0
        isSpinning := false
        selectedIndex := some (settleIndex ch a s)
        lastTickIndex := -1
        pending := s.pending.eraseIdx i
        settledLog := s.settledLog ++ [s.currentItems.getD (settleIndex ch a s).toNat ""] } := by
  simp only [frameBody]
  rw [progressAt_of_ge elapsed he]
  rw [if_neg (lt_irrefl (1 : ℚ))]
  split
  · unfold completeAnim settleIndex
    rfl
  · unfold completeAnim settleIndex
    rfl

/-- A full spin from an idle state with a valid winning index: the winner
`k` is settled, logged pre-removal, and removed; the offset returns to `0`
and the machine returns to idle with no pending animation. -/
theorem fullSpin_spec (ch : ℚ) (k : ℕ) (s : Sys) (hch : 0 < ch)
    (hs : s.isSpinning = false) (hpend : s.pending = [])
    (hk : k < s.currentItems.length) :
    fullSpin ch k s =
      { s with
        currentItems := s.currentItems.eraseIdx k
        currentOffset := 0
        isSpinning := false
        selectedIndex := some (k : ℤ)
        lastTickIndex := -1
        pending := []
        settledLog := s.settledLog ++ [s.currentItems.getD k ""] } := by
  have hne : s.currentItems ≠ [] :=
    List.length_pos.mp (Nat.lt_of_le_of_lt (Nat.zero_le k) hk)
  have hsi : getIndexAtCentreV2 ch s.currentItems.length
      (normalizeOffset ch (finalOffsetV2 ch s.currentItems.length k)) = (k : ℤ) :=
    settle_roundtrip_v2 ch s.currentItems.length k hch
      (Nat.lt_of_le_of_lt (Nat.zero_le k) hk) hk
  unfold fullSpin
  rw [spinStep_run ch k s hs hne]
  rw [frameStep_some ch 0 4000
    { startOffset := s.currentOffset
      distance := finalOffsetV2 ch s.currentItems.length k + 3 * wheelHeight ch
        - s.currentOffset
      finalOffset := finalOffsetV2 ch s.currentItems.length k } _
    (by simp [hpend])]
  rw [frameBody_complete ch 4000 0 _ _ (le_refl 4000)]
  simp only [settleIndex]
  rw [hsi]
  simp [hpend, Int.toNat_natCast]

/-! ### Claims C5, C6 -/

/-- C5.  Spin guard no-op: `spin()` while already spinning or with an empty
item list returns silently with the whole state unchanged; consequently, of
two back-to-back `spin()` calls the second is a no-op, and driving the single
scheduled animation to completion produces exactly one settle notification
and leaves nothing pending. -/
theorem c5_spin_guard_noop (ch : ℚ) (kg k1 k2 : ℕ) (t s : Sys)
    (hguard : t.isSpinning = true ∨ t.currentItems = [])
    (hs : s.isSpinning = false) (hne : s.currentItems ≠ []) (hpend : s.pending = []) :
    spinStep ch kg t = t ∧
    spinStep ch k2 (spinStep ch k1 s) = spinStep ch k1 s ∧
    (frameStep ch 0 4000 (spinStep ch k2 (spinStep ch k1 s))).settledLog.length
      = s.settledLog.length + 1 ∧
    (frameStep ch 0 4000 (spinStep ch k2 (spinStep ch k1 s))).pending = [] := by
  have hrun := spinStep_run ch k1 s hs hne
  have h2 : spinStep ch k2 (spinStep ch k1 s) = spinStep ch k1 s := by
    apply spinStep_guarded
    left
    rw [hrun]
  have h3 : frameStep ch 0 4000 (spinStep ch k1 s)
      = frameBody ch 0 4000
        { startOffset := s.currentOffset
          distance := finalOffsetV2 ch s.currentItems.length k1 + 3 * wheelHeight ch
            - s.currentOffset
          finalOffset := finalOffsetV2 ch s.currentItems.length k1 }
        (spinStep ch k1 s) := by
    apply frameStep_some
    rw [hrun]
    simp [hpend]
  refine ⟨spinStep_guarded ch kg t hguard, h2, ?_, ?_⟩
  · rw [h2, h3, frameBody_complete ch 4000 0 _ _ (le_refl 4000)]
    simp [hrun]
  · rw [h2, h3, frameBody_complete ch 4000 0 _ _ (le_refl 4000)]
    simp [hrun, hpend]

/-- Witness for C5: `t` is the initial (empty) state, `s` a freshly generated
two-item wheel. -/
theorem c5_spin_guard_noop_witness :
    spinStep 10 3 sysInit = sysInit ∧
    spinStep 10 1 (spinStep 10 0 (generateStep ["A", "B"] sysInit))
      = spinStep 10 0 (generateStep ["A", "B"] sysInit) ∧
    (frameStep 10 0 4000 (spinStep 10 1 (spinStep 10 0 (generateStep ["A", "B"] sysInit)))).settledLog.length
      = (generateStep ["A", "B"] sysInit).settledLog.length + 1 ∧
    (frameStep 10 0 4000 (spinStep 10 1 (spinStep 10 0 (generateStep ["A", "B"] sysInit)))).pending = [] :=
  c5_spin_guard_noop 10 3 0 1 sysInit (generateStep ["A", "B"] sysInit)
    (Or.inr rfl) rfl (by simp [generateStep, sysInit]) rfl

/-- C6.  Settle notification: a completing frame appends exactly one entry to
the settle log, that entry is the pre-removal value `items[selectedIndex]`
(the recomputed index is a genuine position of the pre-removal list), the
index is recorded as `selectedIndex`, and only then is the winner removed. -/
theorem c6_settle_notification (ch elapsed : ℚ) (a : Anim) (rest : List Anim)
    (s : Sys) (hch : 0 < ch) (hp : s.pending = a :: rest)
    (hne : s.currentItems ≠ []) (he : 4000 ≤ elapsed) :
    (settleIndex ch a s).toNat < s.currentItems.length ∧
    (frameStep ch 0 elapsed s).settledLog
      = s.settledLog ++ [s.currentItems.getD (settleIndex ch a s).toNat ""] ∧
    (frameStep ch 0 elapsed s).selectedIndex = some (settleIndex ch a s) ∧
    (frameStep ch 0 elapsed s).currentItems
      = s.currentItems.eraseIdx (settleIndex ch a s).toNat := by
  have hn : 0 < s.currentItems.length := List.length_pos.mpr hne
  have hwh := wheelHeight_pos ch hch
  have hrange : 0 ≤ settleIndex ch a s ∧ settleIndex ch a s < s.currentItems.length := by
    unfold settleIndex
    rw [getIndexAtCentreV2_eq ch _ _ hch hn]
    exact floor_div_seg_range ch _ _ hch hn (wrapMod_nonneg _ _ hwh) (wrapMod_lt _ _ hwh)
  have hstep : frameStep ch 0 elapsed s = frameBody ch 0 elapsed a s :=
    frameStep_some ch 0 elapsed a s (by rw [hp]; simp)
  rw [hstep, frameBody_complete ch elapsed 0 a s he]
  refine ⟨?_, rfl, rfl, rfl⟩
  omega

/-- Witness for C6: completing the pending spin of a freshly generated
two-item wheel. -/
theorem c6_settle_notification_witness :
    (settleIndex 10
        { startOffset := 0
          distance := finalOffsetV2 10 2 0 + 3 * wheelHeight 10 - 0
          finalOffset := finalOffsetV2 10 2 0 }
        (spinStep 10 0 (generateStep ["A", "B"] sysInit))).toNat
      < (spinStep 10 0 (generateStep ["A", "B"] sysInit)).currentItems.length ∧
    (frameStep 10 0 4000 (spinStep 10 0 (generateStep ["A", "B"] sysInit))).settledLog
      = (spinStep 10 0 (generateStep ["A", "B"] sysInit)).settledLog ++
        [(spinStep 10 0 (generateStep ["A", "B"] sysInit)).currentItems.getD
          (settleIndex 10
            { startOffset := 0
              distance := finalOffsetV2 10 2 0 + 3 * wheelHeight 10 - 0
              finalOffset := finalOffsetV2 10 2 0 }
            (spinStep 10 0 (generateStep ["A", "B"] sysInit))).toNat ""] ∧
    (frameStep 10 0 4000 (spinStep 10 0 (generateStep ["A", "B"] sysInit))).selectedIndex
      = some (settleIndex 10
          { startOffset := 0
            distance := finalOffsetV2 10 2 0 + 3 * wheelHeight 10 - 0
            finalOffset := finalOffsetV2 10 2 0 }
          (spinStep 10 0 (generateStep ["A", "B"] sysInit))) ∧
    (frameStep 10 0 4000 (spinStep 10 0 (generateStep ["A", "B"] sysInit))).currentItems
      = (spinStep 10 0 (generateStep ["A", "B"] sysInit)).currentItems.eraseIdx
        (settleIndex 10
          { startOffset := 0
            distance := finalOffsetV2 10 2 0 + 3 * wheelHeight 10 - 0
            finalOffset := finalOffsetV2 10 2 0 }
          (spinStep 10 0 (generateStep ["A", "B"] sysInit))).toNat :=
  c6_settle_notification 10 4000
    { startOffset := 0
      distance := finalOffsetV2 10 2 0 + 3 * wheelHeight 10 - 0
      finalOffset := finalOffsetV2 10 2 0 }
    [] (spinStep 10 0 (generateStep ["A", "B"] sysInit))
    (by norm_num) rfl (by simp [spinStep, generateStep, sysInit]) (le_refl 4000)

/-! ### Claim C7: removal and exhaustion -/

/-- Validity of a sequence of winning indices: each one is in range for the
item count remaining at its turn (the code draws
`Math.floor(Math.random() * currentItems.length)`, always in range). -/
inductive ValidSpins : List ℕ → ℕ → Prop where
  | nil (n : ℕ) : ValidSpins [] n
  | cons {k : ℕ} {ks : List ℕ} {n : ℕ} (hk : k < n) (htail : ValidSpins ks (n - 1)) :
      ValidSpins (k :: ks) n

theorem getD_cons_eraseIdx_perm (l : List String) (k : ℕ) (hk : k < l.length) :
    (l.getD k "" :: l.eraseIdx k).Perm l := by
  induction l generalizing k with
  | nil => simp at hk
  | cons x xs ih =>
      cases k with
      | zero => simp
      | succ k =>
          have hk' : k < xs.length := by simpa using hk
          have hswap : (xs.getD k "" :: x :: xs.eraseIdx k).Perm
              (x :: xs.getD k "" :: xs.eraseIdx k) := List.Perm.swap x (xs.getD k "") _
          simpa using hswap.trans ((ih k hk').cons x)

/-- Effect of a valid sequence of completed spins from an idle state: the
machine stays idle with no pending animation, the originals are untouched,
the item count drops by the number of spins, and the settle log extends by a
list of winners that, together with the remaining items, permutes the
starting items. -/
theorem runSpins_spec (ch : ℚ) (hch : 0 < ch) :
    ∀ (ks : List ℕ) (s : Sys), s.isSpinning = false → s.pending = [] →
      ValidSpins ks s.currentItems.length →
      (runSpins ch ks s).isSpinning = false ∧
      (runSpins ch ks s).pending = [] ∧
      (runSpins ch ks s).originalItems = s.originalItems ∧
      (runSpins ch ks s).currentItems.length = s.currentItems.length - ks.length ∧
      ∃ w, (runSpins ch ks s).settledLog = s.settledLog ++ w ∧
        (w ++ (runSpins ch ks s).currentItems).Perm s.currentItems := by
  intro ks
  induction ks with
  | nil =>
      intro s h1 h2 _
      exact ⟨h1, h2, rfl, by simp [runSpins], ⟨[], by simp [runSpins], by simp [runSpins]⟩⟩
  | cons k ks ih =>
      intro s h1 h2 hv
      cases hv with
      | cons hk htail =>
          have hfs := fullSpin_spec ch k s hch h1 h2 hk
          have hlen1 : (fullSpin ch k s).currentItems.length + 1 = s.currentItems.length := by
            rw [hfs]
            exact List.length_eraseIdx_add_one hk
          have hrw : runSpins ch (k :: ks) s = runSpins ch ks (fullSpin ch k s) := rfl
          have hv' : ValidSpins ks (fullSpin ch k s).currentItems.length := by
            have : (fullSpin ch k s).currentItems.length = s.currentItems.length - 1 := by
              omega
            rw [this]
            exact htail
          obtain ⟨g1, g2, g3, g4, w, gw, gperm⟩ :=
            ih (fullSpin ch k s) (by rw [hfs]) (by rw [hfs]) hv'
          refine ⟨by rw [hrw]; exact g1, by rw [hrw]; exact g2, ?_, ?_,
            s.currentItems.getD k "" :: w, ?_, ?_⟩
          · rw [hrw, g3, hfs]
          · rw [hrw, List.length_cons]
            omega
          · rw [hrw, gw, hfs]
            simp
          · rw [hrw]
            have hperm1 : ((s.currentItems.getD k "" :: w)
                ++ (runSpins ch ks (fullSpin ch k s)).currentItems).Perm
                (s.currentItems.getD k "" :: (fullSpin ch k s).currentItems) := by
              rw [List.cons_append]
              exact gperm.cons _
            apply hperm1.trans
            rw [hfs]
            exact getD_cons_eraseIdx_perm s.currentItems k hk

/-- C7.  Removal frame effect and exhaustion: a completed spin with winning
index `k` removes exactly the `k`-th element (order of the others preserved,
length down by one) and zeroes the offset; a full valid sequence of `N` spins
of an `N`-item wheel empties the items, the logged winners forming a
permutation of the starting items (each removed exactly once, no
duplicates). -/
theorem c7_removal_and_exhaustion (ch : ℚ) (s : Sys) (hch : 0 < ch)
    (hs : s.isSpinning = false) (hpend : s.pending = []) :
    (∀ k, k < s.currentItems.length →
      (fullSpin ch k s).currentItems
        = s.currentItems.take k ++ s.currentItems.drop (k + 1) ∧
      (fullSpin ch k s).currentItems.length + 1 = s.currentItems.length ∧
      (fullSpin ch k s).currentOffset = 0) ∧
    (∀ ks, ValidSpins ks s.currentItems.length → ks.length = s.currentItems.length →
      (runSpins ch ks s).currentItems = [] ∧
      ∃ w, (runSpins ch ks s).settledLog = s.settledLog ++ w ∧
        w.Perm s.currentItems) := by
  constructor
  · intro k hk
    have hfs := fullSpin_spec ch k s hch hs hpend hk
    rw [hfs]
    refine ⟨?_, ?_, rfl⟩
    · exact List.eraseIdx_eq_take_drop_succ s.currentItems k
    · exact List.length_eraseIdx_add_one hk
  · intro ks hv hlen
    obtain ⟨g1, g2, g3, g4, w, gw, gperm⟩ := runSpins_spec ch hch ks s hs hpend hv
    have hempty : (runSpins ch ks s).currentItems = [] := by
      rw [← List.length_eq_zero]
      omega
    refine ⟨hempty, w, gw, ?_⟩
    rw [hempty] at gperm
    simpa using gperm

/-- Witness for C7: the spec scenario `generate(["A","B","C"])`, first spin
winning index `1`, then exhaustion by the sequence `[1, 0, 0]`. -/
theorem c7_removal_and_exhaustion_witness :
    ((fullSpin 10 1 (generateStep ["A", "B", "C"] sysInit)).currentItems
      = (generateStep ["A", "B", "C"] sysInit).currentItems.take 1
        ++ (generateStep ["A", "B", "C"] sysInit).currentItems.drop 2 ∧
     (fullSpin 10 1 (generateStep ["A", "B", "C"] sysInit)).currentItems.length + 1
      = (generateStep ["A", "B", "C"] sysInit).currentItems.length ∧
     (fullSpin 10 1 (generateStep ["A", "B", "C"] sysInit)).currentOffset = 0) ∧
    ((runSpins 10 [1, 0, 0] (generateStep ["A", "B", "C"] sysInit)).currentItems = [] ∧
     ∃ w, (runSpins 10 [1, 0, 0] (generateStep ["A", "B", "C"] sysInit)).settledLog
        = (generateStep ["A", "B", "C"] sysInit).settledLog ++ w ∧
       w.Perm (generateStep ["A", "B", "C"] sysInit).currentItems) :=
  ⟨(c7_removal_and_exhaustion 10 (generateStep ["A", "B", "C"] sysInit)
      (by norm_num) rfl rfl).1 1 (by simp [generateStep, sysInit]),
   (c7_removal_and_exhaustion 10 (generateStep ["A", "B", "C"] sysInit)
      (by norm_num) rfl rfl).2 [1, 0, 0]
     (ValidSpins.cons (by simp [generateStep, sysInit])
       (ValidSpins.cons (by simp [generateStep, sysInit])
         (ValidSpins.cons (by simp [generateStep, sysInit]) (ValidSpins.nil 0))))
     (by simp [generateStep, sysInit])⟩

/-! ### Claim C8: idempotent reset -/

theorem spinStep_original (ch : ℚ) (k : ℕ) (s : Sys) :
    (spinStep ch k s).originalItems = s.originalItems := by
  unfold spinStep
  split <;> rfl

theorem frameStep_original (ch : ℚ) (i : ℕ) (elapsed : ℚ) (s : Sys) :
    (frameStep ch i elapsed s).originalItems = s.originalItems := by
  cases h : s.pending[i]? with
  | none => rw [frameStep_none ch i elapsed s h]
  | some a =>
      rw [frameStep_some ch i elapsed a s h]
      simp only [frameBody]
      split
      · split <;> rfl
      · unfold completeAnim
        split <;> rfl

theorem runSpins_original (ch : ℚ) :
    ∀ (ks : List ℕ) (s : Sys), (runSpins ch ks s).originalItems = s.originalItems := by
  intro ks
  induction ks with
  | nil => intro s; rfl
  | cons k ks ih =>
      intro s
      have h1 : runSpins ch (k :: ks) s = runSpins ch ks (fullSpin ch k s) := rfl
      rw [h1, ih]
      unfold fullSpin
      rw [frameStep_original, spinStep_original]

/-- C8.  Idempotent reset: after a `generate` of any non-empty (shuffled)
list followed by any sequence of completed spins, `reset()` restores the
items to exactly the generated list in order, zeroes the offset and clears
the spinning flag; `reset()` is a no-op when no original list is set. -/
theorem c8_idempotent_reset (ch : ℚ) (items0 : List String) (ks : List ℕ)
    (s t : Sys) (h0 : items0 ≠ []) (ht : t.originalItems = []) :
    (resetStep (runSpins ch ks (generateStep items0 s))).currentItems = items0 ∧
    (resetStep (runSpins ch ks (generateStep items0 s))).currentOffset = 0 ∧
    (resetStep (runSpins ch ks (generateStep items0 s))).isSpinning = false ∧
    resetStep t = t := by
  have horig : (runSpins ch ks (generateStep items0 s)).originalItems = items0 := by
    rw [runSpins_original]
    unfold generateStep
    rw [if_neg h0]
  refine ⟨?_, ?_, ?_, ?_⟩
  · unfold resetStep
    rw [if_neg (by rw [horig]; exact h0)]
    exact horig
  · unfold resetStep
    rw [if_neg (by rw [horig]; exact h0)]
  · unfold resetStep
    rw [if_neg (by rw [horig]; exact h0)]
  · unfold resetStep
    rw [if_pos ht]

/-- Witness for C8: generate a two-item wheel, complete one spin, reset; the
no-op case at the initial state. -/
theorem c8_idempotent_reset_witness :
    (resetStep (runSpins 10 [0] (generateStep ["A", "B"] sysInit))).currentItems
      = ["A", "B"] ∧
    (resetStep (runSpins 10 [0] (generateStep ["A", "B"] sysInit))).currentOffset = 0 ∧
    (resetStep (runSpins 10 [0] (generateStep ["A", "B"] sysInit))).isSpinning = false ∧
    resetStep sysInit = sysInit :=
  c8_idempotent_reset 10 ["A", "B"] [0] sysInit sysInit (by simp) rfl

/-! ### Claim C9: single spin in flight -/

/-- One user-visible or scheduler event of the page: a click on spin (with
the randomness it draws), reset, or generate (with the shuffled input), or
the firing of a scheduled animation callback. -/
inductive Step (ch : ℚ) : Sys → Sys → Prop where
  | spin (k : ℕ) (s : Sys) : Step ch s (spinStep ch k s)
  | reset (s : Sys) : Step ch s (resetStep s)
  | generate (items0 : List String) (s : Sys) : Step ch s (generateStep items0 s)
  | frame (i : ℕ) (elapsed : ℚ) (s : Sys) : Step ch s (frameStep ch i elapsed s)

/-- States reachable from page load by any interleaving of the events. -/
inductive Reachable (ch : ℚ) : Sys → Prop where
  | init : Reachable ch sysInit
  | step {s t : Sys} : Reachable ch s → Step ch s t → Reachable ch t

/-- As `Step`, but reset and generate are only clicked while no spin is in
progress. -/
inductive CalmStep (ch : ℚ) : Sys → Sys → Prop where
  | spin (k : ℕ) (s : Sys) : CalmStep ch s (spinStep ch k s)
  | reset (s : Sys) (h : s.isSpinning = false) : CalmStep ch s (resetStep s)
  | generate (items0 : List String) (s : Sys) (h : s.isSpinning = false) :
      CalmStep ch s (generateStep items0 s)
  | frame (i : ℕ) (elapsed : ℚ) (s : Sys) : CalmStep ch s (frameStep ch i elapsed s)

/-- States reachable when reset/generate are never clicked mid-spin. -/
inductive CalmReachable (ch : ℚ) : Sys → Prop where
  | init : CalmReachable ch sysInit
  | step {s t : Sys} : CalmReachable ch s → CalmStep ch s t → CalmReachable ch t

/-- The coupling between the spinning flag and the scheduled callbacks that
holds in the calm system. -/
def SpinInv (s : Sys) : Prop :=
  (s.isSpinning = true → s.pending.length = 1) ∧
  (s.isSpinning = false → s.pending = [])

theorem spinStep_inv (ch : ℚ) (k : ℕ) (s : Sys) (h : SpinInv s) :
    SpinInv (spinStep ch k s) := by
  unfold spinStep
  split
  · exact h
  · rename_i hcond
    push_neg at hcond
    have hfalse : s.isSpinning = false := by
      cases hb : s.isSpinning
      · rfl
      · exact absurd hb hcond.1
    constructor
    · intro _
      simp [h.2 hfalse]
    · intro hcontr
      simp at hcontr

theorem resetStep_inv (s : Sys) (hcalm : s.isSpinning = false) (h : SpinInv s) :
    SpinInv (resetStep s) := by
  unfold resetStep
  split
  · exact h
  · constructor
    · intro hcontr
      simp at hcontr
    · intro _
      exact h.2 hcalm

theorem generateStep_inv (items0 : List String) (s : Sys)
    (hcalm : s.isSpinning = false) (h : SpinInv s) :
    SpinInv (generateStep items0 s) := by
  unfold generateStep
  split
  · exact h
  · constructor
    · intro hcontr
      simp at hcontr
    · intro _
      exact h.2 hcalm

theorem frameStep_inv (ch : ℚ) (i : ℕ) (elapsed : ℚ) (s : Sys) (h : SpinInv s) :
    SpinInv (frameStep ch i elapsed s) := by
  cases hp : s.pending[i]? with
  | none => rw [frameStep_none ch i elapsed s hp]; exact h
  | some a =>
      rw [frameStep_some ch i elapsed a s hp]
      have hlen : i < s.pending.length := by
        by_contra hge
        rw [List.getElem?_eq_none (by omega)] at hp
        exact Option.noConfusion hp
      have hspin : s.isSpinning = true := by
        cases hb : s.isSpinning
        · rw [h.2 hb] at hlen
          simp at hlen
        · rfl
      have hone : s.pending.length = 1 := h.1 hspin
      have hi0 : i = 0 := by omega
      subst hi0
      obtain ⟨b, hb⟩ := List.length_eq_one.mp hone
      rw [hb] at hp
      simp at hp
      simp only [frameBody]
      split
      · constructor
        · intro _
          split <;> simpa using hone
        · intro hcontr
          split at hcontr <;> simp [hspin] at hcontr
      · unfold completeAnim
        constructor
        · intro hcontr
          split at hcontr <;> simp at hcontr
        · intro _
          split <;> simp [hb]

/-- C9 (counterexample).  The claim that at most one spin's animation is
active in EVERY reachable state fails: generate a two-item wheel, spin,
click reset mid-spin (which clears `isSpinning` but does not cancel the
pending animation callback), then spin again — a reachable state with two
concurrently pending animation chains. -/
theorem c9_single_spin_counterexample :
    Reachable 10
      (spinStep 10 0 (resetStep (spinStep 10 0 (generateStep ["A", "B"] sysInit)))) ∧
    (spinStep 10 0 (resetStep (spinStep 10 0
      (generateStep ["A", "B"] sysInit)))).pending.length = 2 := by
  constructor
  · exact Reachable.step
      (Reachable.step
        (Reachable.step
          (Reachable.step Reachable.init (Step.generate ["A", "B"] sysInit))
          (Step.spin 0 _))
        (Step.reset _))
      (Step.spin 0 _)
  · simp [spinStep, resetStep, generateStep, sysInit]

/-- C9 (amended).  When reset and generate are never invoked mid-spin, every
reachable state has at most one pending animation: the Idle/Spinning guard
rejects (does not queue) a second spin while one is active. -/
theorem c9_single_spin_amended (ch : ℚ) (s : Sys) (h : CalmReachable ch s) :
    s.pending.length ≤ 1 := by
  have hinv : SpinInv s := by
    induction h with
    | init =>
        constructor
        · intro hcontr
          exact Bool.noConfusion hcontr
        · intro _
          rfl
    | step hr hstep ih =>
        cases hstep with
        | spin k => exact spinStep_inv ch k _ ih
        | reset => exact resetStep_inv _ (by assumption) ih
        | generate => exact generateStep_inv _ _ (by assumption) ih
        | frame i elapsed => exact frameStep_inv ch i elapsed _ ih
  cases hb : s.isSpinning
  · rw [hinv.2 hb]
    simp
  · rw [hinv.1 hb]

/-- Witness for the amended C9: a calm trace generate-then-spin. -/
theorem c9_single_spin_amended_witness :
    (spinStep 10 0 (generateStep ["A", "B"] sysInit)).pending.length ≤ 1 :=
  c9_single_spin_amended 10 _
    (CalmReachable.step
      (CalmReachable.step CalmReachable.init
        (CalmStep.generate ["A", "B"] sysInit rfl))
      (CalmStep.spin 0 _))
